import Mathlib

/-!
Verification of the batch asset-acquisition pipeline (py-tools).

Shallow embedding of the core subsystem: the token-bucket rate limiter, the
per-URL fetch worker `_download`, the batch coordinator `download_batch`
(both in `src/base/downloadHelper.py`), and the fan-out renamer
`batch_rename_with_duplicate` (`src/base/renameHelper.py`).

Modelling conventions:
* a directory is a list of entries `(name, content)`; `lookupName` is the
  existence/content test, `fsRemove` models deletion, `fsWrite` models a
  content-overwriting copy (`shutil.copy2`), `osRename` models `os.rename`
  (failing with `none` when the source is absent);
* Python floats in the rate limiter are modelled as rationals;
* the outcome of one URL's network fetch is an oracle value `FetchOutcome`:
  the request may succeed, fail before the scratch file is created
  (connection error, bad HTTP status), or fail after the scratch file has
  been created (mid-stream error, rename error) — `_download` catches every
  exception in its `try` block and converts it into a `False` result;
* commits into the staging directory are serialised by the shared naming
  lock, so a batch is modelled as a sequential fold over the fetch outcomes.
-/

/-! ### Decimal numerals: `Nat.repr` is injective

`_get_unique_filename` appends `_1`, `_2`, … to a filename until the name is
free; totality of that loop rests on distinct counters yielding distinct
decimal strings.  Core Lean's `Nat.repr` builds the numeral with
`Nat.toDigitsCore`; we prove a decode round-trip and derive injectivity. -/

/-- Decimal value of a digit character: inverse of `Nat.digitChar` on 0–9. -/
def decDigitVal (c : Char) : Nat := c.toNat - 48

/-- One step of decimal decoding. -/
def decStep (a : Nat) (c : Char) : Nat := 10 * a + decDigitVal c

theorem decDigitVal_digitChar : ∀ m, m < 10 → decDigitVal (Nat.digitChar m) = m := by
  decide

theorem toDigitsCore_eq_append (b : Nat) :
    ∀ (fuel n : Nat) (ds : List Char),
      Nat.toDigitsCore b fuel n ds = Nat.toDigitsCore b fuel n [] ++ ds := by
  intro fuel
  induction fuel with
  | zero => intro n ds; simp [Nat.toDigitsCore]
  | succ fuel ih =>
    intro n ds
    simp only [Nat.toDigitsCore]
    by_cases h : n / b = 0
    · simp [h]
    · simp only [h, if_false]
      rw [ih (n / b) (Nat.digitChar (n % b) :: ds), ih (n / b) [Nat.digitChar (n % b)]]
      simp

theorem foldl_decStep_toDigitsCore :
    ∀ (fuel n : Nat), n < fuel →
      List.foldl decStep 0 (Nat.toDigitsCore 10 fuel n []) = n := by
  intro fuel
  induction fuel with
  | zero => intro n h; omega
  | succ fuel ih =>
    intro n h
    simp only [Nat.toDigitsCore]
    by_cases h0 : n / 10 = 0
    · have hn : n < 10 := by omega
      simp only [h0, if_true, List.foldl_cons, List.foldl_nil]
      rw [decStep, decDigitVal_digitChar (n % 10) (Nat.mod_lt n (by omega))]
      omega
    · simp only [h0, if_false]
      rw [toDigitsCore_eq_append, List.foldl_append]
      have hlt : n / 10 < fuel := by omega
      rw [ih (n / 10) hlt]
      simp only [List.foldl_cons, List.foldl_nil]
      rw [decStep, decDigitVal_digitChar (n % 10) (Nat.mod_lt n (by omega))]
      omega

theorem reprData_inj {m n : Nat} (h : (Nat.repr m).data = (Nat.repr n).data) : m = n := by
  have h2 : Nat.toDigitsCore 10 (m + 1) m [] = Nat.toDigitsCore 10 (n + 1) n [] := h
  have hm := foldl_decStep_toDigitsCore (m + 1) m (Nat.lt_succ_self m)
  have hn := foldl_decStep_toDigitsCore (n + 1) n (Nat.lt_succ_self n)
  rw [h2, hn] at hm
  exact hm.symm

/-! ### `os.path.splitext` and the unique-name loop -/

/-- Model of `os.path.splitext` restricted to plain basenames (the only
inputs the source feeds it): split at the last dot, except that a name whose
characters before that dot are all dots is not split. -/
def splitext (p : String) : String × String :=
  if '.' ∈ p.data then
    let i := p.data.length - 1 - List.indexOf '.' p.data.reverse
    if (p.data.take i).any (fun c => c ≠ '.') then
      (⟨p.data.take i⟩, ⟨p.data.drop i⟩)
    else (p, "")
  else (p, "")

/-- The candidate name tried at counter `k`: `f"{base}_{k}{ext}"`. -/
def candName (base ext : String) (k : Nat) : String :=
  base ++ "_" ++ Nat.repr k ++ ext

theorem candName_inj (base ext : String) {i j : Nat}
    (h : candName base ext i = candName base ext j) : i = j := by
  have hd := congrArg String.data h
  simp only [candName, String.data_append, List.append_assoc] at hd
  have h1 := List.append_cancel_left hd
  have h2 := List.append_cancel_left h1
  exact reprData_inj (List.append_cancel_right h2)

/-- The `while os.path.exists(...)` loop of `_get_unique_filename`
(downloadHelper.py lines 163–173), with explicit fuel: try
`base_1`, `base_2`, … until a candidate is absent from the directory. -/
def uniqueGo (dir : List String) (base ext : String) : Nat → Nat → String
  | 0, k => candName base ext k
  | fuel + 1, k =>
    if candName base ext k ∈ dir then uniqueGo dir base ext fuel (k + 1)
    else candName base ext k

/-- `_get_unique_filename(save_dir, filename)` (downloadHelper.py lines
163–173): the derived name itself if free, else the first suffixed candidate
that is free.  Fuel `dir.length + 1` provably suffices. -/
def getUniqueFilename (dir : List String) (filename : String) : String :=
  if filename ∈ dir then
    uniqueGo dir (splitext filename).1 (splitext filename).2 (dir.length + 1) 1
  else filename

theorem uniqueGo_not_mem (dir : List String) (base ext : String) :
    ∀ (fuel k : Nat),
      ((List.range' k fuel).filter (fun i => candName base ext i ∈ dir)).length < fuel →
      uniqueGo dir base ext fuel k ∉ dir := by
  intro fuel
  induction fuel with
  | zero => intro k h; omega
  | succ fuel ih =>
    intro k h
    simp only [uniqueGo]
    by_cases hmem : candName base ext k ∈ dir
    · rw [if_pos hmem]
      apply ih (k + 1)
      have hr : List.range' k (fuel + 1) = k :: List.range' (k + 1) fuel :=
        List.range'_succ k fuel 1
      rw [hr, List.filter_cons] at h
      simp only [hmem, decide_True, if_true, List.length_cons] at h
      omega
    · rw [if_neg hmem]
      exact hmem

theorem getUniqueFilename_not_mem (dir : List String) (filename : String) :
    getUniqueFilename dir filename ∉ dir := by
  rw [getUniqueFilename]
  by_cases hmem : filename ∈ dir
  · rw [if_pos hmem]
    apply uniqueGo_not_mem
    set base := (splitext filename).1
    set ext := (splitext filename).2
    set L := (List.range' 1 (dir.length + 1)).filter (fun i => candName base ext i ∈ dir)
      with hL
    have hnodup : L.Nodup :=
      List.Nodup.filter _ (List.nodup_range' 1 (dir.length + 1))
    have hmap : (L.map (candName base ext)).Nodup :=
      hnodup.map (fun i j hij => candName_inj base ext hij)
    have hsub : L.map (candName base ext) ⊆ dir := by
      intro x hx
      rcases List.mem_map.mp hx with ⟨i, hi, hxi⟩
      rcases List.mem_filter.mp hi with ⟨_, hpi⟩
      rw [← hxi]
      exact of_decide_eq_true hpi
    have hlen : (L.map (candName base ext)).length ≤ dir.length :=
      (List.subperm_of_subset hmap hsub).length_le
    rw [List.length_map] at hlen
    omega
  · rw [if_neg hmem]
    exact hmem

/-! ### The token-bucket rate limiter (`RateLimiter`, downloadHelper.py 17–32)

Python floats are modelled as rationals; the wall clock is modelled by
passing the elapsed time since the previous call directly. -/

structure RateLimiter where
  rate : ℚ
  tokens : ℚ
  deriving DecidableEq

/-- `RateLimiter.__init__`: `self.tokens = 0`. -/
def RateLimiter.init (rate : ℚ) : RateLimiter := ⟨rate, 0⟩

/-- `RateLimiter.acquire` (lines 23–32): refill proportionally to elapsed
time, capped at `rate`; grant and decrement if at least one token. -/
def RateLimiter.acquire (l : RateLimiter) (elapsed : ℚ) : RateLimiter × Bool :=
  let t := min l.rate (l.tokens + elapsed * l.rate)
  if 1 ≤ t then (⟨l.rate, t - 1⟩, true) else (⟨l.rate, t⟩, false)

/-- Model of the limiter prelude of `_download` (lines 94–95):
`if not limiter.acquire(): time.sleep(0.1)`.  One single acquire attempt;
on denial the worker sleeps a fixed 0.1 s; in either case control then
falls through to the HTTP request (lines 97–111).  Components: limiter
state after the attempt, whether a token was granted, sleep duration,
and whether the HTTP request is subsequently issued. -/
def fetchAttempt (l : RateLimiter) (elapsed : ℚ) : RateLimiter × Bool × ℚ × Bool :=
  let r := l.acquire elapsed
  (r.1, r.2, if r.2 then 0 else 1 / 10, true)

/-! ### The per-URL fetch worker and the batch fold
(`_download` lines 85–133, `download_batch` lines 34–63)

`_download`'s entire network/filesystem phase sits in one `try` block.  The
oracle `FetchOutcome` records how that phase went for one URL:
* `success name temp`: the body streamed into scratch file `temp`, the
  logical filename resolved to `name`, and the lock-guarded commit renamed
  the scratch file to a collision-free final name;
* `failEarly`: an exception before the scratch file was created
  (connection error, `raise_for_status`);
* `failLate temp`: an exception after scratch file `temp` was created
  (mid-stream read error, rename error); the except branch (lines 131–133)
  performs no cleanup, so the scratch file stays in the staging directory.
-/

inductive FetchOutcome where
  | success (logicalName : String) (tempName : String)
  | failEarly
  | failLate (tempName : String)
  deriving DecidableEq

def FetchOutcome.isSuccess : FetchOutcome → Bool
  | .success _ _ => true
  | _ => false

def FetchOutcome.isLateFail : FetchOutcome → Bool
  | .failLate _ => true
  | _ => false

inductive LogMsg where
  | okMsg (filename : String)
  | failMsg (url : String)
  deriving DecidableEq

def LogMsg.failUrl? : LogMsg → Option String
  | .failMsg u => some u
  | _ => none

/-- Observable state of one batch: the staging directory's entries, the
final names committed by successful fetches, the printed log (newest
first), and the per-URL boolean results `_download` returned. -/
structure BatchState where
  dir : List String
  committed : List String
  log : List LogMsg
  results : List Bool
  deriving DecidableEq

def initialBatchState : BatchState := ⟨[], [], [], []⟩

/-- Effect of one `_download` call on the batch state.  On success the
scratch file is present in the staging directory when
`_get_unique_filename` runs (it was created there, line 116), hence the
`temp :: st.dir` existence set; the commit (lines 124–127) renames it to
the resolved final name.  On a late failure the scratch file remains. -/
def stepFetch (st : BatchState) (url : String) (o : FetchOutcome) : BatchState :=
  match o with
  | .success name temp =>
    let final := getUniqueFilename (temp :: st.dir) name
    ⟨final :: st.dir, final :: st.committed, .okMsg final :: st.log, st.results ++ [true]⟩
  | .failEarly =>
    ⟨st.dir, st.committed, .failMsg url :: st.log, st.results ++ [false]⟩
  | .failLate temp =>
    ⟨temp :: st.dir, st.committed, .failMsg url :: st.log, st.results ++ [false]⟩

def runBatchFrom (st : BatchState) (jobs : List (String × FetchOutcome)) : BatchState :=
  jobs.foldl (fun s j => stepFetch s j.1 j.2) st

/-- `download_batch` over the staging directory: one `_download` per URL;
commits are serialised by the shared lock. -/
def runBatch (jobs : List (String × FetchOutcome)) : BatchState :=
  runBatchFrom initialBatchState jobs

/-- `download_batch` (lines 34–63) has no `return` statement: the Python
function returns `None`; per-URL outcomes are only printed. -/
def downloadBatchReturn (_jobs : List (String × FetchOutcome)) : Unit := ()

def successCount (jobs : List (String × FetchOutcome)) : Nat :=
  (jobs.filter (fun j => j.2.isSuccess)).length

def lateFailCount (jobs : List (String × FetchOutcome)) : Nat :=
  (jobs.filter (fun j => j.2.isLateFail)).length

/-- The URLs whose fetch failed, in submission order. -/
def failedUrls (jobs : List (String × FetchOutcome)) : List String :=
  (jobs.filter (fun j => !j.2.isSuccess)).map Prod.fst

/-! ### A named-entry filesystem model

Directories are association lists `(name, content)`.  `lookupName` is used
both for `os.path.exists`/content reads and for dictionary lookups. -/

def lookupName {β : Type} : List (String × β) → String → Option β
  | [], _ => none
  | e :: t, n => if e.1 = n then some e.2 else lookupName t n

/-- `shutil.rmtree` / `os.remove` of the entry called `n`. -/
def fsRemove {β : Type} (fs : List (String × β)) (n : String) : List (String × β) :=
  fs.filter (fun e => e.1 ≠ n)

/-- `shutil.copy2 src dst`: install content `c` at name `n`, silently
replacing any existing entry of that name. -/
def fsWrite {β : Type} (fs : List (String × β)) (n : String) (c : β) : List (String × β) :=
  (n, c) :: fsRemove fs n

/-- `os.rename src dst`: moves the entry; raises (`none`) if `src` is
absent.  (Failure modes tied to a pre-existing non-empty `dst` are not
modelled; every use below has a fresh `dst`.) -/
def osRename {β : Type} (fs : List (String × β)) (src dst : String) :
    Option (List (String × β)) :=
  match lookupName fs src with
  | some c => some ((dst, c) :: fsRemove fs src)
  | none => none

theorem lookupName_fsRemove {β : Type} (fs : List (String × β)) (n m : String) :
    lookupName (fsRemove fs n) m = if m = n then none else lookupName fs m := by
  induction fs with
  | nil => simp [fsRemove, lookupName]
  | cons e t ih =>
    by_cases he : e.1 = n
    · have : fsRemove (e :: t) n = fsRemove t n := by
        simp [fsRemove, List.filter_cons, he]
      rw [this, ih]
      by_cases hm : m = n
      · simp [hm]
      · have hme : ¬ e.1 = m := by rw [he]; intro hc; exact hm hc.symm
        simp [hm, lookupName, hme]
    · have : fsRemove (e :: t) n = e :: fsRemove t n := by
        simp [fsRemove, List.filter_cons, he]
      rw [this]
      by_cases hm : e.1 = m
      · have hmn : ¬ m = n := by rw [← hm]; exact fun hc => he hc
        simp [lookupName, hm, hmn]
      · simp only [lookupName, if_neg hm]
        exact ih

theorem lookupName_fsWrite {β : Type} (fs : List (String × β)) (n : String) (c : β)
    (m : String) :
    lookupName (fsWrite fs n c) m = if m = n then some c else lookupName fs m := by
  by_cases hm : m = n
  · simp [fsWrite, lookupName, hm]
  · have hnm : ¬ n = m := fun hc => hm hc.symm
    simp [fsWrite, lookupName, hnm, lookupName_fsRemove, hm]

theorem lookupName_isSome_iff {β : Type} (fs : List (String × β)) (n : String) :
    (lookupName fs n).isSome = true ↔ n ∈ fs.map Prod.fst := by
  induction fs with
  | nil => simp [lookupName]
  | cons e t ih =>
    by_cases he : e.1 = n
    · simp [lookupName, he]
    · have hne : ¬ n = e.1 := fun hc => he hc.symm
      simp [lookupName, he, ih, hne]

theorem lookupName_mem {β : Type} {fs : List (String × β)} {n : String} {v : β}
    (h : lookupName fs n = some v) : (n, v) ∈ fs := by
  induction fs with
  | nil => simp [lookupName] at h
  | cons e t ih =>
    by_cases he : e.1 = n
    · simp only [lookupName, if_pos he] at h
      obtain ⟨a, b⟩ := e
      cases he
      cases h
      exact List.mem_cons_self _ _
    · simp only [lookupName, if_neg he] at h
      exact List.mem_cons_of_mem e (ih h)

/-! ### The publish step of `download_batch` (downloadHelper.py lines 61–83)

After the completion barrier, `shutil.move(tmpdir, save_dir)` drops the
staging directory into `save_dir` under the temporary directory's basename;
the rename block then applies the backup-or-delete policy to a pre-existing
`target_subdir` and renames the staged directory to `target_subdir`.
`fs` is the entry list of `save_dir`; `staged` the whole staged content. -/

def downloadPublish {β : Type} (fs : List (String × β)) (staged : β)
    (tmpName targetSubdir timestamp : String) (delExisted : Bool) :
    Option (List (String × β)) :=
  let fs0 := (tmpName, staged) :: fs
  let backupName := targetSubdir ++ "_backup_" ++ timestamp
  let step1 : Option (List (String × β)) :=
    if (lookupName fs0 targetSubdir).isSome then
      if delExisted then some (fsRemove fs0 targetSubdir)
      else osRename fs0 targetSubdir backupName
    else some fs0
  step1.bind (fun fs1 => osRename fs1 tmpName targetSubdir)

/-! ### The destination-directory step of `batch_rename_with_duplicate`
(renameHelper.py lines 14–31)

The destination root is `"rename_" ++ basename`; a pre-existing one is
deleted or renamed to a timestamped backup; then `shutil.copytree`
installs a copy of the source tree there. -/

def renamePrep {β : Type} (fs : List (String × β)) (srcName : String) (srcContent : β)
    (timestamp : String) (delExisted : Bool) : Option (List (String × β)) :=
  let destName := "rename_" ++ srcName
  let backupName := "rename_" ++ srcName ++ "_backup_" ++ timestamp
  let step1 : Option (List (String × β)) :=
    if (lookupName fs destName).isSome then
      if delExisted then some (fsRemove fs destName)
      else osRename fs destName backupName
    else some fs
  step1.map (fun fs1 => (destName, srcContent) :: fs1)

/-! ### The fan-out rename walk (renameHelper.py lines 33–51)

`os.walk` lists the files of the copied tree once; for each listed file
that is a key of `name_map`, one `shutil.copy2` per destination name is
performed and then the original is removed with `os.remove`.  `failSet`
injects copy failures: `shutil.copy2` raises when the destination name is
in `failSet` (the loop has no try/except, so the exception aborts the walk
with the filesystem in its current state; the error value records the file
being processed and that state).  A `copy2`/read on a missing source also
aborts. -/

def copyLoop {β : Type} (failSet : List String) (content : β) :
    List (String × β) → List String → Except (List (String × β)) (List (String × β))
  | tree, [] => Except.ok tree
  | tree, d :: rest =>
    if d ∈ failSet then Except.error tree
    else copyLoop failSet content (fsWrite tree d content) rest

def renameWalk {β : Type} (mapping : List (String × List String)) (failSet : List String) :
    List String → List (String × β) → Except (String × List (String × β)) (List (String × β))
  | [], tree => Except.ok tree
  | f :: rest, tree =>
    match lookupName mapping f with
    | none => renameWalk mapping failSet rest tree
    | some dests =>
      match lookupName tree f with
      | none => Except.error (f, tree)
      | some c =>
        match copyLoop failSet c tree dests with
        | Except.error t => Except.error (f, t)
        | Except.ok t1 => renameWalk mapping failSet rest (fsRemove t1 f)

/-- The rename loop of `batch_rename_with_duplicate` applied to the copied
tree: the walk visits the snapshot of filenames taken when the directory is
listed. -/
def renameRun {β : Type} (mapping : List (String × List String)) (failSet : List String)
    (tree : List (String × β)) :
    Except (String × List (String × β)) (List (String × β)) :=
  renameWalk mapping failSet (tree.map Prod.fst) tree

theorem copyLoop_nil {β : Type} (c : β) :
    ∀ (ds : List String) (tree : List (String × β)),
      copyLoop [] c tree ds =
        Except.ok (ds.foldl (fun tr d => fsWrite tr d c) tree) := by
  intro ds
  induction ds with
  | nil => intro tree; simp [copyLoop]
  | cons d rest ih =>
    intro tree
    simp only [copyLoop, List.not_mem_nil, if_false, List.foldl_cons]
    exact ih (fsWrite tree d c)

theorem copyLoop_ok_eq {β : Type} (failSet : List String) (c : β) :
    ∀ (ds : List String) (tree t1 : List (String × β)),
      copyLoop failSet c tree ds = Except.ok t1 →
      t1 = ds.foldl (fun tr d => fsWrite tr d c) tree := by
  intro ds
  induction ds with
  | nil =>
    intro tree t1 h
    simp only [copyLoop] at h
    cases h
    rfl
  | cons d rest ih =>
    intro tree t1 h
    simp only [copyLoop] at h
    by_cases hd : d ∈ failSet
    · rw [if_pos hd] at h; cases h
    · rw [if_neg hd] at h
      simp only [List.foldl_cons]
      exact ih (fsWrite tree d c) t1 h

theorem copyLoop_error_preserve {β : Type} (failSet : List String) (c : β) (n : String) :
    ∀ (ds : List String) (tree t : List (String × β)),
      copyLoop failSet c tree ds = Except.error t →
      lookupName tree n = some c →
      lookupName t n = some c := by
  intro ds
  induction ds with
  | nil =>
    intro tree t h _
    simp only [copyLoop] at h
    cases h
  | cons d rest ih =>
    intro tree t h hn
    simp only [copyLoop] at h
    by_cases hd : d ∈ failSet
    · rw [if_pos hd] at h
      cases h
      exact hn
    · rw [if_neg hd] at h
      apply ih (fsWrite tree d c) t h
      rw [lookupName_fsWrite]
      by_cases hnd : n = d
      · rw [if_pos hnd]
      · rw [if_neg hnd]; exact hn

theorem lookupName_foldl_fsWrite {β : Type} (c : β) (n : String) :
    ∀ (ds : List String) (tree : List (String × β)),
      lookupName (ds.foldl (fun tr d => fsWrite tr d c) tree) n =
        if n ∈ ds then some c else lookupName tree n := by
  intro ds
  induction ds with
  | nil => intro tree; simp
  | cons d rest ih =>
    intro tree
    simp only [List.foldl_cons]
    rw [ih (fsWrite tree d c), lookupName_fsWrite]
    by_cases h1 : n ∈ rest
    · simp [h1]
    · by_cases h2 : n = d
      · simp [h1, h2]
      · simp [h1, h2]

/-- Names that the walk neither removes (keys still to be processed) nor
writes (destinations of keys still to be processed) keep their content. -/
theorem renameWalk_untouched {β : Type} (mapping : List (String × List String))
    (n : String) :
    ∀ (files : List String) (tree t : List (String × β)),
      (n ∈ files → lookupName mapping n = none) →
      (∀ g ∈ files, ∀ ds, lookupName mapping g = some ds → n ∉ ds) →
      renameWalk mapping [] files tree = Except.ok t →
      lookupName t n = lookupName tree n := by
  intro files
  induction files with
  | nil =>
    intro tree t _ _ hrun
    simp only [renameWalk] at hrun
    cases hrun
    rfl
  | cons f rest ih =>
    intro tree t hkey hdest hrun
    simp only [renameWalk] at hrun
    cases hm : lookupName mapping f with
    | none =>
      simp only [hm] at hrun
      exact ih tree t (fun hn => hkey (List.mem_cons_of_mem f hn))
        (fun g hg ds hds => hdest g (List.mem_cons_of_mem f hg) ds hds) hrun
    | some ds =>
      simp only [hm] at hrun
      cases ht : lookupName tree f with
      | none => simp only [ht] at hrun; cases hrun
      | some c =>
        simp only [ht, copyLoop_nil] at hrun
        have hnf : n ≠ f := by
          intro hc
          subst hc
          rw [hkey (List.mem_cons_self n rest)] at hm
          cases hm
        have hrest := ih _ t (fun hn => hkey (List.mem_cons_of_mem f hn))
          (fun g hg ds2 hds => hdest g (List.mem_cons_of_mem f hg) ds2 hds) hrun
        rw [hrest, lookupName_fsRemove, if_neg hnf, lookupName_foldl_fsWrite,
          if_neg (hdest f (List.mem_cons_self f rest) ds hm)]

/-- With no injected copy failure the walk completes whenever the listed
files exist and are pairwise distinct (as a real directory listing is). -/
theorem renameWalk_ok {β : Type} (mapping : List (String × List String)) :
    ∀ (files : List String) (tree : List (String × β)),
      files.Nodup → (∀ g ∈ files, (lookupName tree g).isSome = true) →
      ∃ t, renameWalk mapping [] files tree = Except.ok t := by
  intro files
  induction files with
  | nil => intro tree _ _; exact ⟨tree, rfl⟩
  | cons f rest ih =>
    intro tree hnd hpres
    simp only [renameWalk]
    cases hm : lookupName mapping f with
    | none =>
      exact ih tree hnd.of_cons (fun g hg => hpres g (List.mem_cons_of_mem f hg))
    | some ds =>
      have hf := hpres f (List.mem_cons_self f rest)
      cases ht : lookupName tree f with
      | none => rw [ht] at hf; simp at hf
      | some c =>
        simp only [ht, copyLoop_nil]
        apply ih
        · exact hnd.of_cons
        · intro g hg
          have hgf : g ≠ f := by
            intro hc
            subst hc
            exact (List.nodup_cons.mp hnd).1 hg
          rw [lookupName_fsRemove, if_neg hgf, lookupName_foldl_fsWrite]
          by_cases hgds : g ∈ ds
          · simp [hgds]
          · rw [if_neg hgds]
            exact hpres g (List.mem_cons_of_mem f hg)

/-- A listed file that is a key of the mapping is removed by the walk. -/
theorem renameWalk_mapped_removed {β : Type} (mapping : List (String × List String))
    (f : String) :
    ∀ (files : List String) (tree t : List (String × β)) (ds0 : List String),
      files.Nodup → f ∈ files → lookupName mapping f = some ds0 →
      (∀ g ∈ files, ∀ ds, lookupName mapping g = some ds → f ∉ ds) →
      renameWalk mapping [] files tree = Except.ok t →
      lookupName t f = none := by
  intro files
  induction files with
  | nil => intro tree t ds0 _ hf; cases hf
  | cons g rest ih =>
    intro tree t ds0 hnd hf hm hdest hrun
    simp only [renameWalk] at hrun
    by_cases hgf : g = f
    · subst hgf
      simp only [hm] at hrun
      cases ht : lookupName tree g with
      | none => simp only [ht] at hrun; cases hrun
      | some c =>
        simp only [ht, copyLoop_nil] at hrun
        have hg_not_rest : g ∉ rest := (List.nodup_cons.mp hnd).1
        have hU := renameWalk_untouched mapping g rest _ t
          (fun hmem => absurd hmem hg_not_rest)
          (fun g2 hg2 ds hds => hdest g2 (List.mem_cons_of_mem g hg2) ds hds)
          hrun
        rw [hU, lookupName_fsRemove, if_pos rfl]
    · have hfrest : f ∈ rest := List.mem_of_ne_of_mem (fun hc => hgf hc.symm) hf
      cases hmg : lookupName mapping g with
      | none =>
        simp only [hmg] at hrun
        exact ih tree t ds0 hnd.of_cons hfrest hm
          (fun g2 hg2 ds hds => hdest g2 (List.mem_cons_of_mem g hg2) ds hds) hrun
      | some ds =>
        simp only [hmg] at hrun
        cases ht : lookupName tree g with
        | none => simp only [ht] at hrun; cases hrun
        | some c =>
          simp only [ht, copyLoop_nil] at hrun
          exact ih _ t ds0 hnd.of_cons hfrest hm
            (fun g2 hg2 ds2 hds => hdest g2 (List.mem_cons_of_mem g hg2) ds2 hds) hrun

/-- Each destination name of a mapped listed file receives a copy of that
file's content, provided destination names collide neither with listed
files nor with other keys' destinations. -/
theorem renameWalk_dest_written {β : Type} (mapping : List (String × List String))
    (f d : String) (c0 : β) :
    ∀ (files : List String) (tree t : List (String × β)) (ds0 : List String),
      files.Nodup → f ∈ files → lookupName mapping f = some ds0 → d ∈ ds0 →
      (∀ g ∈ files, ∀ ds, lookupName mapping g = some ds → f ∉ ds) →
      (∀ g ∈ files, g ≠ f → ∀ ds, lookupName mapping g = some ds → d ∉ ds) →
      d ∉ files →
      lookupName tree f = some c0 →
      renameWalk mapping [] files tree = Except.ok t →
      lookupName t d = some c0 := by
  intro files
  induction files with
  | nil => intro tree t ds0 _ hf; cases hf
  | cons g rest ih =>
    intro tree t ds0 hnd hf hm hd hnof hnod hdnf htf hrun
    simp only [renameWalk] at hrun
    by_cases hgf : g = f
    · subst hgf
      simp only [hm, htf, copyLoop_nil] at hrun
      have hg_not_rest : g ∉ rest := (List.nodup_cons.mp hnd).1
      have hU := renameWalk_untouched mapping d rest _ t
        (fun hmem => absurd (List.mem_cons_of_mem g hmem) hdnf)
        (fun g2 hg2 ds hds => by
          have hg2g : g2 ≠ g := by
            intro hc
            subst hc
            exact hg_not_rest hg2
          exact hnod g2 (List.mem_cons_of_mem g hg2) hg2g ds hds)
        hrun
      have hdg : d ≠ g := by
        intro hc
        subst hc
        exact hdnf (List.mem_cons_self d rest)
      rw [hU, lookupName_fsRemove, if_neg hdg, lookupName_foldl_fsWrite, if_pos hd]
    · have hfrest : f ∈ rest := List.mem_of_ne_of_mem (fun hc => hgf hc.symm) hf
      have hdrest : d ∉ rest := fun hc => hdnf (List.mem_cons_of_mem g hc)
      cases hmg : lookupName mapping g with
      | none =>
        simp only [hmg] at hrun
        exact ih tree t ds0 hnd.of_cons hfrest hm hd
          (fun g2 hg2 ds hds => hnof g2 (List.mem_cons_of_mem g hg2) ds hds)
          (fun g2 hg2 hg2f ds hds => hnod g2 (List.mem_cons_of_mem g hg2) hg2f ds hds)
          hdrest htf hrun
      | some ds =>
        simp only [hmg] at hrun
        cases ht : lookupName tree g with
        | none => simp only [ht] at hrun; cases hrun
        | some c =>
          simp only [ht, copyLoop_nil] at hrun
          have hfg : f ≠ g := fun hc => hgf hc.symm
          have hfds : f ∉ ds := hnof g (List.mem_cons_self g rest) ds hmg
          have htf2 : lookupName
              (fsRemove (ds.foldl (fun tr x => fsWrite tr x c) tree) g) f = some c0 := by
            rw [lookupName_fsRemove, if_neg hfg, lookupName_foldl_fsWrite, if_neg hfds]
            exact htf
          exact ih _ t ds0 hnd.of_cons hfrest hm hd
            (fun g2 hg2 ds2 hds => hnof g2 (List.mem_cons_of_mem g hg2) ds2 hds)
            (fun g2 hg2 hg2f ds2 hds => hnod g2 (List.mem_cons_of_mem g hg2) hg2f ds2 hds)
            hdrest htf2 hrun

/-- When the walk aborts with an injected copy failure, the file whose
fan-out was in progress is still present, with unchanged content. -/
theorem renameWalk_error_src_present {β : Type} (mapping : List (String × List String))
    (failSet : List String) :
    ∀ (files : List String) (tree : List (String × β)) (f : String)
      (t : List (String × β)),
      files.Nodup →
      (∀ g ∈ files, (lookupName tree g).isSome = true) →
      (∀ g ds, lookupName mapping g = some ds → ∀ x ∈ files, x ∉ ds) →
      renameWalk mapping failSet files tree = Except.error (f, t) →
      f ∈ files ∧ lookupName t f = lookupName tree f ∧ (lookupName t f).isSome = true := by
  intro files
  induction files with
  | nil =>
    intro tree f t _ _ _ hrun
    simp only [renameWalk] at hrun
    cases hrun
  | cons g rest ih =>
    intro tree f t hnd hpres hdisj hrun
    simp only [renameWalk] at hrun
    cases hm : lookupName mapping g with
    | none =>
      simp only [hm] at hrun
      obtain ⟨hf, h1, h2⟩ := ih tree f t hnd.of_cons
        (fun x hx => hpres x (List.mem_cons_of_mem g hx))
        (fun g2 ds hds x hx => hdisj g2 ds hds x (List.mem_cons_of_mem g hx)) hrun
      exact ⟨List.mem_cons_of_mem g hf, h1, h2⟩
    | some ds =>
      simp only [hm] at hrun
      have hgp := hpres g (List.mem_cons_self g rest)
      cases ht : lookupName tree g with
      | none => rw [ht] at hgp; simp at hgp
      | some c =>
        simp only [ht] at hrun
        cases hcl : copyLoop failSet c tree ds with
        | error t2 =>
          simp only [hcl] at hrun
          simp only [Except.error.injEq, Prod.mk.injEq] at hrun
          obtain ⟨hgf, ht2⟩ := hrun
          subst hgf
          subst ht2
          have hpre := copyLoop_error_preserve failSet c g ds tree t2 hcl ht
          refine ⟨List.mem_cons_self g rest, ?_, ?_⟩
          · rw [hpre, ht]
          · rw [hpre]
            rfl
        | ok t1 =>
          simp only [hcl] at hrun
          have ht1 := copyLoop_ok_eq failSet c ds tree t1 hcl
          subst ht1
          have hg_not_rest : g ∉ rest := (List.nodup_cons.mp hnd).1
          obtain ⟨hf, h1, h2⟩ := ih _ f t hnd.of_cons
            (fun x hx => by
              have hxg : x ≠ g := by
                intro hc
                subst hc
                exact hg_not_rest hx
              rw [lookupName_fsRemove, if_neg hxg, lookupName_foldl_fsWrite]
              by_cases hxds : x ∈ ds
              · simp [hxds]
              · rw [if_neg hxds]
                exact hpres x (List.mem_cons_of_mem g hx))
            (fun g2 ds2 hds x hx => hdisj g2 ds2 hds x (List.mem_cons_of_mem g hx))
            hrun
          have hfg : f ≠ g := by
            intro hc
            subst hc
            exact hg_not_rest hf
          have hfds : f ∉ ds := hdisj g ds hm f (List.mem_cons_of_mem g hf)
          rw [lookupName_fsRemove, if_neg hfg, lookupName_foldl_fsWrite, if_neg hfds]
            at h1
          exact ⟨List.mem_cons_of_mem g hf, h1, by rw [h1] at h2; rw [h1]; exact h2⟩

theorem runBatchFrom_cons (st : BatchState) (u : String) (o : FetchOutcome)
    (rest : List (String × FetchOutcome)) :
    runBatchFrom st ((u, o) :: rest) = runBatchFrom (stepFetch st u o) rest := rfl

theorem runBatchFrom_dir_length :
    ∀ (jobs : List (String × FetchOutcome)) (st : BatchState),
      (runBatchFrom st jobs).dir.length
        = st.dir.length + successCount jobs + lateFailCount jobs := by
  intro jobs
  induction jobs with
  | nil => intro st; simp [runBatchFrom, successCount, lateFailCount]
  | cons j rest ih =>
    intro st
    obtain ⟨u, o⟩ := j
    rw [runBatchFrom_cons, ih]
    cases o <;>
      simp [stepFetch, successCount, lateFailCount, List.filter_cons,
        FetchOutcome.isSuccess, FetchOutcome.isLateFail] <;>
      omega

theorem runBatchFrom_committed :
    ∀ (jobs : List (String × FetchOutcome)) (st : BatchState),
      (runBatchFrom st jobs).committed.length
          = st.committed.length + successCount jobs
      ∧ ((∀ n ∈ st.committed, n ∈ st.dir) → st.committed.Nodup →
          (∀ n ∈ (runBatchFrom st jobs).committed, n ∈ (runBatchFrom st jobs).dir)
            ∧ (runBatchFrom st jobs).committed.Nodup) := by
  intro jobs
  induction jobs with
  | nil =>
    intro st
    exact ⟨by simp [runBatchFrom, successCount], fun h1 h2 => ⟨h1, h2⟩⟩
  | cons j rest ih =>
    intro st
    obtain ⟨u, o⟩ := j
    rw [runBatchFrom_cons]
    obtain ⟨ihl, ihp⟩ := ih (stepFetch st u o)
    constructor
    · rw [ihl]
      cases o <;>
        simp [stepFetch, successCount, List.filter_cons, FetchOutcome.isSuccess] <;>
        try omega
    · intro hsub hnd
      apply ihp
      · cases o with
        | success name temp =>
          intro n hn
          simp only [stepFetch, List.mem_cons] at hn ⊢
          rcases hn with hn | hn
          · exact Or.inl hn
          · exact Or.inr (hsub n hn)
        | failEarly => exact hsub
        | failLate temp =>
          intro n hn
          simp only [stepFetch, List.mem_cons] at hn ⊢
          exact Or.inr (hsub n hn)
      · cases o with
        | success name temp =>
          simp only [stepFetch]
          have hfin := getUniqueFilename_not_mem (temp :: st.dir) name
          rw [List.nodup_cons]
          refine ⟨?_, hnd⟩
          intro hc
          exact hfin (List.mem_cons_of_mem temp (hsub _ hc))
        | failEarly => exact hnd
        | failLate temp => exact hnd

theorem runBatchFrom_results :
    ∀ (jobs : List (String × FetchOutcome)) (st : BatchState),
      (runBatchFrom st jobs).results
        = st.results ++ jobs.map (fun j => j.2.isSuccess) := by
  intro jobs
  induction jobs with
  | nil => intro st; simp [runBatchFrom]
  | cons j rest ih =>
    intro st
    obtain ⟨u, o⟩ := j
    rw [runBatchFrom_cons, ih]
    cases o <;> simp [stepFetch, FetchOutcome.isSuccess]

theorem runBatchFrom_failLog :
    ∀ (jobs : List (String × FetchOutcome)) (st : BatchState),
      (runBatchFrom st jobs).log.filterMap LogMsg.failUrl?
        = (failedUrls jobs).reverse ++ st.log.filterMap LogMsg.failUrl? := by
  intro jobs
  induction jobs with
  | nil => intro st; simp [runBatchFrom, failedUrls]
  | cons j rest ih =>
    intro st
    obtain ⟨u, o⟩ := j
    rw [runBatchFrom_cons, ih]
    cases o <;>
      simp [stepFetch, failedUrls, List.filter_cons, FetchOutcome.isSuccess,
        LogMsg.failUrl?, List.filterMap_cons]

theorem lookupName_cons {β : Type} (a : String) (b : β) (fs : List (String × β))
    (n : String) :
    lookupName ((a, b) :: fs) n = if a = n then some b else lookupName fs n := rfl

theorem osRename_eq {β : Type} {fs : List (String × β)} {src : String} {c : β}
    (h : lookupName fs src = some c) (dst : String) :
    osRename fs src dst = some ((dst, c) :: fsRemove fs src) := by
  simp only [osRename, h]

/-- C10: the rate limiter starts empty — an immediate `acquire` (no elapsed
time) is denied — and every `acquire` call keeps `0 ≤ tokens ≤ rate`, given
a non-negative configured rate and a monotone clock. -/
theorem rateLimiter_invariant :
    (∀ r : ℚ, (RateLimiter.init r).tokens = 0
      ∧ ((RateLimiter.init r).acquire 0).2 = false)
    ∧ (∀ (l : RateLimiter) (e : ℚ), 0 ≤ l.rate → 0 ≤ l.tokens → l.tokens ≤ l.rate →
        0 ≤ e →
        0 ≤ (l.acquire e).1.tokens ∧ (l.acquire e).1.tokens ≤ (l.acquire e).1.rate) := by
  constructor
  · intro r
    refine ⟨rfl, ?_⟩
    have h0 : ¬ (1 : ℚ) ≤ min r (0 + 0 * r) := by
      intro hc
      have h1 : (1 : ℚ) ≤ 0 + 0 * r := le_trans hc (min_le_right _ _)
      simp at h1
      linarith
    simp only [RateLimiter.acquire, RateLimiter.init]
    rw [if_neg h0]
  · intro l e hr h0 h1 he
    simp only [RateLimiter.acquire]
    by_cases hc : (1 : ℚ) ≤ min l.rate (l.tokens + e * l.rate)
    · rw [if_pos hc]
      have htr : min l.rate (l.tokens + e * l.rate) ≤ l.rate := min_le_left _ _
      constructor
      · show (0 : ℚ) ≤ min l.rate (l.tokens + e * l.rate) - 1
        linarith
      · show min l.rate (l.tokens + e * l.rate) - 1 ≤ l.rate
        linarith
    · rw [if_neg hc]
      have htr : min l.rate (l.tokens + e * l.rate) ≤ l.rate := min_le_left _ _
      have ht0 : (0 : ℚ) ≤ min l.rate (l.tokens + e * l.rate) :=
        le_min hr (add_nonneg h0 (mul_nonneg he hr))
      exact ⟨ht0, htr⟩

theorem rateLimiter_invariant_witness :
    0 ≤ ((RateLimiter.mk 15 1).acquire 1).1.tokens
    ∧ ((RateLimiter.mk 15 1).acquire 1).1.tokens
        ≤ ((RateLimiter.mk 15 1).acquire 1).1.rate :=
  rateLimiter_invariant.2 (RateLimiter.mk 15 1) 1 (by decide) (by decide) (by decide)
    (by decide)

/-- C7 counterexample: with a freshly constructed limiter (zero tokens, no
elapsed time) the acquire attempt is denied, yet the fetcher still issues
the HTTP request — the code does not poll until a token is granted. -/
theorem fetchAttempt_denied_still_issues :
    (fetchAttempt (RateLimiter.init 15) 0).2.1 = false
    ∧ (fetchAttempt (RateLimiter.init 15) 0).2.2.2 = true := by
  constructor
  · show (RateLimiter.acquire (RateLimiter.init 15) 0).2 = false
    have h0 : ¬ (1 : ℚ) ≤ min (15 : ℚ) (0 + 0 * 15) := by
      rw [min_def]
      norm_num
    simp only [RateLimiter.acquire, RateLimiter.init]
    rw [if_neg h0]
  · rfl

/-- C7 amended: the fetcher makes exactly one acquire attempt; on denial it
sleeps a fixed 0.1 s backoff once and then issues the request anyway — the
request can be initiated without any token having been granted. -/
theorem fetchAttempt_single_poll (l : RateLimiter) (e : ℚ) :
    (fetchAttempt l e).1 = (l.acquire e).1
    ∧ (fetchAttempt l e).2.1 = (l.acquire e).2
    ∧ (fetchAttempt l e).2.2.1 = (if (l.acquire e).2 then 0 else 1 / 10)
    ∧ (fetchAttempt l e).2.2.2 = true :=
  ⟨rfl, rfl, rfl, rfl⟩

/-- C3: publishing onto an already-existing target directory follows the
policy: with `del_dir_existed = True` the old target is removed before the
staged content is installed; with `False` the old target is renamed to the
timestamped backup name, content intact, and the staged content installed
at the target. -/
theorem downloadPublish_policy {β : Type} (fs : List (String × β)) (staged old : β)
    (tmpName targetSubdir timestamp : String)
    (hold : lookupName fs targetSubdir = some old)
    (htne : tmpName ≠ targetSubdir)
    (hbne : ¬ (targetSubdir ++ "_backup_" ++ timestamp = targetSubdir))
    (hbnt : ¬ (tmpName = targetSubdir ++ "_backup_" ++ timestamp))
    (hbfresh : lookupName fs (targetSubdir ++ "_backup_" ++ timestamp) = none) :
    (∃ r, downloadPublish fs staged tmpName targetSubdir timestamp true = some r
       ∧ lookupName r targetSubdir = some staged
       ∧ lookupName r (targetSubdir ++ "_backup_" ++ timestamp) = none)
    ∧ (∃ r, downloadPublish fs staged tmpName targetSubdir timestamp false = some r
       ∧ lookupName r targetSubdir = some staged
       ∧ lookupName r (targetSubdir ++ "_backup_" ++ timestamp) = some old) := by
  have hfs0 : lookupName ((tmpName, staged) :: fs) targetSubdir = some old := by
    rw [lookupName_cons, if_neg htne]
    exact hold
  have htl : lookupName ((tmpName, staged) :: fs) tmpName = some staged := by
    rw [lookupName_cons, if_pos rfl]
  constructor
  · have hstep : lookupName (fsRemove ((tmpName, staged) :: fs) targetSubdir) tmpName
        = some staged := by
      rw [lookupName_fsRemove, if_neg htne]
      exact htl
    refine ⟨(targetSubdir, staged)
        :: fsRemove (fsRemove ((tmpName, staged) :: fs) targetSubdir) tmpName,
      ?_, ?_, ?_⟩
    · simp only [downloadPublish, hfs0, Option.isSome_some, if_true]
      exact osRename_eq hstep targetSubdir
    · rw [lookupName_cons, if_pos rfl]
    · rw [lookupName_cons, if_neg (fun hc => hbne hc.symm), lookupName_fsRemove,
        if_neg (fun hc => hbnt hc.symm), lookupName_fsRemove, if_neg hbne,
        lookupName_cons, if_neg hbnt]
      exact hbfresh
  · have hr1 := osRename_eq hfs0 (targetSubdir ++ "_backup_" ++ timestamp)
    have hstep2 : lookupName
        ((targetSubdir ++ "_backup_" ++ timestamp, old)
          :: fsRemove ((tmpName, staged) :: fs) targetSubdir) tmpName = some staged := by
      rw [lookupName_cons, if_neg (fun hc => hbnt hc.symm), lookupName_fsRemove,
        if_neg htne]
      exact htl
    refine ⟨(targetSubdir, staged)
        :: fsRemove ((targetSubdir ++ "_backup_" ++ timestamp, old)
            :: fsRemove ((tmpName, staged) :: fs) targetSubdir) tmpName,
      ?_, ?_, ?_⟩
    · simp only [downloadPublish, hfs0, Option.isSome_some, if_true, if_false,
        Bool.false_eq_true, hr1]
      exact osRename_eq hstep2 targetSubdir
    · rw [lookupName_cons, if_pos rfl]
    · rw [lookupName_cons, if_neg (fun hc => hbne hc.symm), lookupName_fsRemove,
        if_neg (fun hc => hbnt hc.symm), lookupName_cons, if_pos rfl]

theorem downloadPublish_policy_witness :
    (∃ r, downloadPublish [("downloaded", (5 : Nat))] 9 "tmpabc" "downloaded"
          "20260101_000000" true = some r
       ∧ lookupName r "downloaded" = some 9
       ∧ lookupName r ("downloaded" ++ "_backup_" ++ "20260101_000000") = none)
    ∧ (∃ r, downloadPublish [("downloaded", (5 : Nat))] 9 "tmpabc" "downloaded"
          "20260101_000000" false = some r
       ∧ lookupName r "downloaded" = some 9
       ∧ lookupName r ("downloaded" ++ "_backup_" ++ "20260101_000000") = some 5) :=
  downloadPublish_policy [("downloaded", (5 : Nat))] 9 5 "tmpabc" "downloaded"
    "20260101_000000" (by decide) (by decide) (by decide) (by decide) (by decide)

/-- C1 counterexample: a fetch that fails after creating its scratch file
(e.g. a mid-stream read error) leaves the scratch file behind — the except
branch performs no cleanup — so the staging directory holds one file while
the batch had zero successful fetches. -/
theorem stagingCount_counterexample :
    (runBatch [("u", FetchOutcome.failLate "temp_9f.tmp")]).dir.length
      ≠ successCount [("u", FetchOutcome.failLate "temp_9f.tmp")] := by
  decide

/-- C1 amended: after a batch the staging directory contains exactly one
committed file per successful fetch plus one leftover scratch file per
fetch that failed after creating its scratch file; the committed filenames
are pairwise distinct and all present in the directory. -/
theorem stagingCensus (jobs : List (String × FetchOutcome)) :
    (runBatch jobs).dir.length = successCount jobs + lateFailCount jobs
    ∧ (runBatch jobs).committed.length = successCount jobs
    ∧ (runBatch jobs).committed.Nodup
    ∧ ∀ n ∈ (runBatch jobs).committed, n ∈ (runBatch jobs).dir := by
  have hd := runBatchFrom_dir_length jobs initialBatchState
  obtain ⟨hl, hp⟩ := runBatchFrom_committed jobs initialBatchState
  have hinit1 : ∀ n ∈ initialBatchState.committed, n ∈ initialBatchState.dir := by
    intro n hn
    cases hn
  obtain ⟨hsub, hnd⟩ := hp hinit1 List.nodup_nil
  refine ⟨?_, ?_, hnd, hsub⟩
  · simpa [runBatch, initialBatchState] using hd
  · simpa [runBatch, initialBatchState] using hl

/-- C2: the name committed under the naming lock is never one that already
exists in the staging directory (so commits never overwrite), and two
fetches both deriving `a.png` stage `a.png` and `a_1.png`. -/
theorem uniqueName_no_overwrite :
    (∀ (dir : List String) (filename : String), getUniqueFilename dir filename ∉ dir)
    ∧ (runBatch [("u1", FetchOutcome.success "a.png" "t1.tmp"),
        ("u2", FetchOutcome.success "a.png" "t2.tmp")]).dir
      = ["a_1.png", "a.png"] :=
  ⟨getUniqueFilename_not_mem, by decide⟩

/-- C8: every URL of a batch yields a boolean result — `_download` catches
any exception in its fetch phase and returns `False` for that URL — so the
result list covers the whole batch and a failure never aborts the
remaining URLs. -/
theorem perUrlFailureIsolation (jobs : List (String × FetchOutcome)) :
    (runBatch jobs).results.length = jobs.length
    ∧ (runBatch jobs).results = jobs.map (fun j => j.2.isSuccess) := by
  have h : (runBatch jobs).results = jobs.map (fun j => j.2.isSuccess) := by
    have h2 := runBatchFrom_results jobs initialBatchState
    simpa [runBatch, initialBatchState] using h2
  exact ⟨by rw [h, List.length_map], h⟩

/-- C9 counterexample: `download_batch` returns `None` whatever happened —
two batches with different success/failure tallies produce the identical
return value, so no per-item tally (nor overall success) is reported to
the caller. -/
theorem downloadBatchReturn_no_tally :
    successCount [("u1", FetchOutcome.success "a.png" "t1.tmp")] = 1
    ∧ successCount [("u1", FetchOutcome.failEarly)] = 0
    ∧ downloadBatchReturn [("u1", FetchOutcome.success "a.png" "t1.tmp")]
        = downloadBatchReturn [("u1", FetchOutcome.failEarly)] :=
  ⟨by decide, by decide, rfl⟩

/-- C9 amended: `download_batch` returns nothing to its caller; per-URL
failures are reported only through the printed log, which contains exactly
one failure line naming each failed URL. -/
theorem downloadBatch_reports_via_log (jobs : List (String × FetchOutcome)) :
    downloadBatchReturn jobs = ()
    ∧ (runBatch jobs).log.filterMap LogMsg.failUrl? = (failedUrls jobs).reverse := by
  refine ⟨rfl, ?_⟩
  have h := runBatchFrom_failLog jobs initialBatchState
  simpa [runBatch, initialBatchState] using h

/-- C4 counterexample: mapping `x.png ↦ [y.png]` applied to a tree that
already contains `y.png` silently overwrites it: `y.png` is not a key of
the mapping, yet it does not keep its content `2` — it ends with `x.png`'s
content `1`. -/
theorem renameRun_overwrites_unmapped :
    renameRun [("x.png", ["y.png"])] [] [("x.png", (1 : Nat)), ("y.png", 2)]
      = Except.ok [("y.png", 1)]
    ∧ lookupName [("y.png", (1 : Nat))] "y.png" ≠ some 2 :=
  ⟨by rfl, by decide⟩

/-- C4 amended: provided the mapping's destination names collide neither
with files of the tree nor with other keys' destination names, every
mapped file is duplicated once per destination name (byte-identical
content) and then removed, and every unmapped file keeps its name and
content; when a destination name coincides with an existing file that file
is silently overwritten instead. -/
theorem renameRun_fanout {β : Type} (tree : List (String × β))
    (mapping : List (String × List String))
    (hnodup : (tree.map Prod.fst).Nodup)
    (hfresh : ∀ e ∈ mapping, ∀ d ∈ e.2, d ∉ tree.map Prod.fst)
    (hcross : ∀ e ∈ mapping, ∀ e2 ∈ mapping, e.1 ≠ e2.1 → ∀ d ∈ e.2, d ∉ e2.2) :
    ∃ t, renameRun mapping [] tree = Except.ok t
      ∧ (∀ f, f ∈ tree.map Prod.fst → lookupName mapping f = none →
          lookupName t f = lookupName tree f)
      ∧ (∀ f ds, f ∈ tree.map Prod.fst → lookupName mapping f = some ds →
          lookupName t f = none)
      ∧ (∀ f ds d c0, f ∈ tree.map Prod.fst → lookupName mapping f = some ds →
          d ∈ ds → lookupName tree f = some c0 → lookupName t d = some c0) := by
  have hpres : ∀ g ∈ tree.map Prod.fst, (lookupName tree g).isSome = true :=
    fun g hg => (lookupName_isSome_iff tree g).mpr hg
  have hfresh2 : ∀ g ds, lookupName mapping g = some ds → ∀ d ∈ ds,
      d ∉ tree.map Prod.fst :=
    fun g ds hds d hd => hfresh (g, ds) (lookupName_mem hds) d hd
  obtain ⟨t, hok⟩ := renameWalk_ok mapping (tree.map Prod.fst) tree hnodup hpres
  refine ⟨t, hok, ?_, ?_, ?_⟩
  · intro f hf hnone
    exact renameWalk_untouched mapping f (tree.map Prod.fst) tree t
      (fun _ => hnone)
      (fun g _ ds hds hfds => hfresh2 g ds hds f hfds hf) hok
  · intro f ds hf hds
    exact renameWalk_mapped_removed mapping f (tree.map Prod.fst) tree t ds
      hnodup hf hds
      (fun g _ ds2 hds2 hfds2 => hfresh2 g ds2 hds2 f hfds2 hf) hok
  · intro f ds d c0 hf hds hd hc0
    have hnod : ∀ g ∈ tree.map Prod.fst, g ≠ f → ∀ ds2,
        lookupName mapping g = some ds2 → d ∉ ds2 := by
      intro g _ hgf ds2 hds2 hdds2
      exact hcross (f, ds) (lookupName_mem hds) (g, ds2) (lookupName_mem hds2)
        (fun hc => hgf hc.symm) d hd hdds2
    exact renameWalk_dest_written mapping f d c0 (tree.map Prod.fst) tree t ds
      hnodup hf hds hd
      (fun g _ ds2 hds2 hfds2 => hfresh2 g ds2 hds2 f hfds2 hf)
      hnod
      (fun hdf => hfresh2 f ds hds d hd hdf)
      hc0 hok

theorem renameRun_fanout_witness :
    ∃ t, renameRun [("x.png", ["1.png", "2.png"])] []
        [("x.png", (7 : Nat)), ("z.png", 5)] = Except.ok t
      ∧ (∀ f, f ∈ [("x.png", (7 : Nat)), ("z.png", 5)].map Prod.fst →
          lookupName [("x.png", ["1.png", "2.png"])] f = none →
          lookupName t f = lookupName [("x.png", (7 : Nat)), ("z.png", 5)] f)
      ∧ (∀ f ds, f ∈ [("x.png", (7 : Nat)), ("z.png", 5)].map Prod.fst →
          lookupName [("x.png", ["1.png", "2.png"])] f = some ds →
          lookupName t f = none)
      ∧ (∀ f ds d c0, f ∈ [("x.png", (7 : Nat)), ("z.png", 5)].map Prod.fst →
          lookupName [("x.png", ["1.png", "2.png"])] f = some ds →
          d ∈ ds → lookupName [("x.png", (7 : Nat)), ("z.png", 5)] f = some c0 →
          lookupName t d = some c0) :=
  renameRun_fanout [("x.png", (7 : Nat)), ("z.png", 5)] [("x.png", ["1.png", "2.png"])]
    (by decide) (by decide) (by decide)

/-- C5: the walk deletes a matched original only after all of its copies
succeeded: if one copy raises, the walk aborts with the original still
present and its content unchanged. -/
theorem renameRun_error_preserves_source {β : Type} (tree : List (String × β))
    (mapping : List (String × List String)) (failSet : List String)
    (f : String) (t : List (String × β))
    (hnodup : (tree.map Prod.fst).Nodup)
    (hfresh : ∀ e ∈ mapping, ∀ d ∈ e.2, d ∉ tree.map Prod.fst)
    (herr : renameRun mapping failSet tree = Except.error (f, t)) :
    lookupName t f = lookupName tree f ∧ (lookupName t f).isSome = true := by
  have hpres : ∀ g ∈ tree.map Prod.fst, (lookupName tree g).isSome = true :=
    fun g hg => (lookupName_isSome_iff tree g).mpr hg
  have hdisj : ∀ g ds, lookupName mapping g = some ds → ∀ x ∈ tree.map Prod.fst,
      x ∉ ds :=
    fun g ds hds x _ hxds => hfresh (g, ds) (lookupName_mem hds) x hxds
      (by assumption)
  obtain ⟨_, h1, h2⟩ := renameWalk_error_src_present mapping failSet
    (tree.map Prod.fst) tree f t hnodup hpres hdisj herr
  exact ⟨h1, h2⟩

theorem renameRun_error_preserves_source_witness :
    lookupName [("a.png", (1 : Nat)), ("x.png", 1)] "x.png"
        = lookupName [("x.png", (1 : Nat))] "x.png"
    ∧ (lookupName [("a.png", (1 : Nat)), ("x.png", 1)] "x.png").isSome = true :=
  renameRun_error_preserves_source [("x.png", (1 : Nat))]
    [("x.png", ["a.png", "b.png"])] ["b.png"] "x.png"
    [("a.png", (1 : Nat)), ("x.png", 1)] (by decide) (by decide) (by rfl)

/-- C6 counterexample: inside the rename fan-out loop, a destination
filename that coincides with a file already present in the destination
tree (`b.png`) is overwritten by `shutil.copy2` with no backup and no
deletion policy applied — its content `20` is silently lost. -/
theorem renameRun_file_collision_overwrites :
    renameRun [("a.png", ["b.png"])] [] [("a.png", (10 : Nat)), ("b.png", 20)]
      = Except.ok [("b.png", 10)]
    ∧ lookupName [("b.png", (10 : Nat))] "b.png" ≠ some 20 :=
  ⟨by rfl, by decide⟩

/-- C6 amended: the backup-or-delete policy protects pre-existing
DIRECTORIES at the two destination roots — the rename destination root
`rename_*` and the publish target — which are never silently overwritten;
but it does not extend to individual files inside the rename fan-out,
where a destination filename colliding with an existing file silently
overwrites it. -/
theorem dirPolicy_no_silent_overwrite {β : Type}
    (fs gs : List (String × β)) (srcName : String) (srcContent old pold staged : β)
    (timestamp ts2 tmpName targetSubdir : String)
    (hold : lookupName fs ("rename_" ++ srcName) = some old)
    (hbne : ¬ ("rename_" ++ srcName ++ "_backup_" ++ timestamp = "rename_" ++ srcName))
    (hbfresh : lookupName fs ("rename_" ++ srcName ++ "_backup_" ++ timestamp) = none)
    (hpold : lookupName gs targetSubdir = some pold)
    (htne : tmpName ≠ targetSubdir)
    (hbne2 : ¬ (targetSubdir ++ "_backup_" ++ ts2 = targetSubdir))
    (hbnt2 : ¬ (tmpName = targetSubdir ++ "_backup_" ++ ts2)) :
    (∃ r, renamePrep fs srcName srcContent timestamp false = some r
       ∧ lookupName r ("rename_" ++ srcName ++ "_backup_" ++ timestamp) = some old
       ∧ lookupName r ("rename_" ++ srcName) = some srcContent)
    ∧ (∃ r, renamePrep fs srcName srcContent timestamp true = some r
       ∧ lookupName r ("rename_" ++ srcName) = some srcContent
       ∧ lookupName r ("rename_" ++ srcName ++ "_backup_" ++ timestamp) = none)
    ∧ (∃ r, downloadPublish gs staged tmpName targetSubdir ts2 false = some r
       ∧ lookupName r targetSubdir = some staged
       ∧ lookupName r (targetSubdir ++ "_backup_" ++ ts2) = some pold) := by
  refine ⟨?_, ?_, ?_⟩
  · have hr := osRename_eq hold ("rename_" ++ srcName ++ "_backup_" ++ timestamp)
    refine ⟨("rename_" ++ srcName, srcContent)
        :: ("rename_" ++ srcName ++ "_backup_" ++ timestamp, old)
        :: fsRemove fs ("rename_" ++ srcName), ?_, ?_, ?_⟩
    · simp only [renamePrep, hold, Option.isSome_some, if_true, if_false,
        Bool.false_eq_true, hr, Option.map_some']
    · rw [lookupName_cons, if_neg (fun hc => hbne hc.symm), lookupName_cons,
        if_pos rfl]
    · rw [lookupName_cons, if_pos rfl]
  · refine ⟨("rename_" ++ srcName, srcContent) :: fsRemove fs ("rename_" ++ srcName),
      ?_, ?_, ?_⟩
    · simp only [renamePrep, hold, Option.isSome_some, if_true, Option.map_some']
    · rw [lookupName_cons, if_pos rfl]
    · rw [lookupName_cons, if_neg (fun hc => hbne hc.symm), lookupName_fsRemove,
        if_neg hbne]
      exact hbfresh
  · have hgs0 : lookupName ((tmpName, staged) :: gs) targetSubdir = some pold := by
      rw [lookupName_cons, if_neg htne]
      exact hpold
    have htl : lookupName ((tmpName, staged) :: gs) tmpName = some staged := by
      rw [lookupName_cons, if_pos rfl]
    have hr1 := osRename_eq hgs0 (targetSubdir ++ "_backup_" ++ ts2)
    have hstep2 : lookupName
        ((targetSubdir ++ "_backup_" ++ ts2, pold)
          :: fsRemove ((tmpName, staged) :: gs) targetSubdir) tmpName = some staged := by
      rw [lookupName_cons, if_neg (fun hc => hbnt2 hc.symm), lookupName_fsRemove,
        if_neg htne]
      exact htl
    refine ⟨(targetSubdir, staged)
        :: fsRemove ((targetSubdir ++ "_backup_" ++ ts2, pold)
            :: fsRemove ((tmpName, staged) :: gs) targetSubdir) tmpName,
      ?_, ?_, ?_⟩
    · simp only [downloadPublish, hgs0, Option.isSome_some, if_true, if_false,
        Bool.false_eq_true, hr1]
      exact osRename_eq hstep2 targetSubdir
    · rw [lookupName_cons, if_pos rfl]
    · rw [lookupName_cons, if_neg (fun hc => hbne2 hc.symm), lookupName_fsRemove,
        if_neg (fun hc => hbnt2 hc.symm), lookupName_cons, if_pos rfl]

theorem dirPolicy_no_silent_overwrite_witness :
    (∃ r, renamePrep [("rename_pics", (3 : Nat))] "pics" 8 "20260101_000000" false
          = some r
       ∧ lookupName r ("rename_" ++ "pics" ++ "_backup_" ++ "20260101_000000") = some 3
       ∧ lookupName r ("rename_" ++ "pics") = some 8)
    ∧ (∃ r, renamePrep [("rename_pics", (3 : Nat))] "pics" 8 "20260101_000000" true
          = some r
       ∧ lookupName r ("rename_" ++ "pics") = some 8
       ∧ lookupName r ("rename_" ++ "pics" ++ "_backup_" ++ "20260101_000000") = none)
    ∧ (∃ r, downloadPublish [("downloaded", (3 : Nat))] 8 "tmpxyz" "downloaded"
          "20260202_000000" false = some r
       ∧ lookupName r "downloaded" = some 8
       ∧ lookupName r ("downloaded" ++ "_backup_" ++ "20260202_000000") = some 3) :=
  dirPolicy_no_silent_overwrite [("rename_pics", (3 : Nat))] [("downloaded", (3 : Nat))]
    "pics" 8 3 3 8 "20260101_000000" "20260202_000000" "tmpxyz" "downloaded"
    (by decide) (by decide) (by decide) (by decide) (by decide) (by decide) (by decide)
